import Mathlib

/-
Verification of the historical conversation parser
(scripts/historical_parser.py).

The script streams raw conversation records, filters them by a date
cutoff, extracts flat summary records, sorts them by date, and greedily
partitions them into size-bounded chunks that are written as CSV files.

Modelling conventions:
* Python strings are sequences of Unicode code points, modelled as
  `List Char` (`Str`).  Slicing `s[:n]` is `List.take n`,
  `sep.join xs` is `List.intercalate`, `x in s` is `List.contains`.
* Python dict field access `d.get(k, default)` on the semi-structured
  input is modelled by `Option` fields plus `Option.getD`.
* `datetime` values are totally ordered; the composition of
  `created_at.replace('Z', '+00:00')`, `datetime.fromisoformat` and the
  timezone strip is modelled by an arbitrary fallible parse function
  `parseTs : Str → Option Nat` (parse failure = the `except: continue`).
* Sizes: the script measures `len(str(conv)) / 2^20` megabytes in floats
  and compares against `max_size_mb`; all quantities are dyadic
  rationals `len / 2^20` that doubles represent and add exactly at the
  magnitudes involved, so the comparison is modelled exactly on natural
  numbers of bytes against a budget `maxBytes` (= `max_size_mb * 2^20`),
  with the estimator `sz` kept as a parameter.
* `list.sort(key=...)` is Python's stable sort; it is modelled by a
  stable insertion sort on the `date` key (extensionally equal to every
  stable sort under the same key).
* A `chat_messages` element that is not an object makes `message.get`
  raise `AttributeError` inside the `try` of
  `process_single_conversation`; the raising path is modelled by the
  `RawMessage.other` constructor and an `Except`-valued body, whose
  caught result is `none`.
-/

namespace HistoricalParser

/-- Python strings as lists of Unicode code points. -/
abbrev Str := List Char

/-- Lexicographic strict comparison of Python strings (code-point order). -/
def strLt : Str → Str → Bool
  | _, [] => false
  | [], _ :: _ => true
  | a :: as, b :: bs => decide (a < b) || (decide (a = b) && strLt as bs)

/-- The literal `"USER MESSAGES:\n"` from `process_single_conversation`. -/
def userHeader : Str := "USER MESSAGES:\n".toList

/-- The literal `"\n\nCLAUDE RESPONSES:\n"` from `process_single_conversation`. -/
def claudeHeader : Str := "\n\nCLAUDE RESPONSES:\n".toList

/-- The separator `"\n---\n"` joining messages. -/
def msgSep : Str := "\n---\n".toList

/-- The truncation marker `"...[TRUNCATED]"`. -/
def truncMarker : Str := "...[TRUNCATED]".toList

/-- The unconditional preview suffix `"..."`. -/
def ellipsis : Str := "...".toList

/-- The sender tag `'human'`. -/
def humanRole : Str := "human".toList

/-- The sender tag `'assistant'`. -/
def assistantRole : Str := "assistant".toList

/-- The fallback conversation id `'unknown'`. -/
def unknownId : Str := "unknown".toList

/-- The fallback title `'Untitled'`. -/
def untitled : Str := "Untitled".toList

/-- The flat summary produced for one conversation by
`process_single_conversation` (the dict literal at its end). -/
structure SummaryRecord where
  conversation_id : Str
  date : Str
  title : Str
  message_count : Nat
  user_message_count : Nat
  claude_response_count : Nat
  total_characters : Nat
  conversation_preview : Str
  conversation_text : Str
  deriving DecidableEq

/-- One element of `chat_messages`: either a message object carrying
`text` and `sender` (with the `get` defaults `''` already folded in,
since a missing field and `''` are indistinguishable downstream), or a
non-object element, on which `message.get` raises `AttributeError`. -/
inductive RawMessage where
  | dict (text : Str) (sender : Str)
  | other
  deriving DecidableEq

/-- The sender of a message object, if it is one. -/
def RawMessage.senderOf : RawMessage → Option Str
  | .dict _ s => some s
  | .other => none

/-- The text of a message object (`''` for a non-object element;
only used to state sums over well-formed message lists). -/
def RawMessage.textOf : RawMessage → Str
  | .dict t _ => t
  | .other => []

/-- One raw conversation: the fields the script reads.  `none` models an
absent key (so `conversation.get('uuid', 'unknown')` is `uuid.getD unknownId`,
and `conversation.get('created_at')` with no default is the `Option` itself). -/
structure RawConversation where
  uuid : Option Str
  created_at : Option Str
  name : Option Str
  chat_messages : List RawMessage
  deriving DecidableEq

/-- The message loop of `process_single_conversation`: partitions message
texts into the `user_messages` and `claude_responses` buckets (the
`if sender == 'human' / elif sender == 'assistant'` ladder) and sums all
content lengths.  A non-object element raises, modelled as `.error`. -/
def processMessages : List RawMessage → Except String (List Str × List Str × Nat)
  | [] => .ok ([], [], 0)
  | .other :: _ => .error ("AttributeError: get")
  | .dict text sender :: rest =>
    match processMessages rest with
    | .error e => .error e
    | .ok (us, cs, tc) =>
      if sender = humanRole then .ok (text :: us, cs, text.length + tc)
      else if sender = assistantRole then .ok (us, text :: cs, text.length + tc)
      else .ok (us, cs, text.length + tc)

/-- The body of the `try` block of `process_single_conversation`
(`.ok none` is the `return None` for an empty message list). -/
def extractBody (conversation : RawConversation) : Except String (Option SummaryRecord) :=
  let conv_id := conversation.uuid.getD unknownId
  let created_at := conversation.created_at.getD []
  let name := conversation.name.getD untitled
  let chat_messages := conversation.chat_messages
  if chat_messages.isEmpty then .ok none
  else
    match processMessages chat_messages with
    | .error e => .error e
    | .ok (user_messages, claude_responses, total_chars) =>
      let t := userHeader ++ List.intercalate msgSep (user_messages.take 3)
      let t2 := t ++ claudeHeader ++ List.intercalate msgSep (claude_responses.take 3)
      let conversation_text := if 10000 < t2.length then t2.take 10000 ++ truncMarker else t2
      .ok (some
        { conversation_id := conv_id
          date := if created_at.contains 'T' then created_at.takeWhile (fun ch => ch ≠ 'T') else created_at
          title := name
          message_count := chat_messages.length
          user_message_count := user_messages.length
          claude_response_count := claude_responses.length
          total_characters := total_chars
          conversation_preview :=
            ((conversation_text.map (fun ch => if ch = '\n' then ' ' else ch)).map
              (fun ch => if ch = '\r' then ' ' else ch)).take 500 ++ ellipsis
          conversation_text := conversation_text })

/-- `process_single_conversation`: the `try` body with every exception
caught and converted to `None` (plus a logged warning, not modelled). -/
def process_single_conversation (conversation : RawConversation) : Option SummaryRecord :=
  match extractBody conversation with
  | .ok r => r
  | .error _ => none

/-- The `user_messages` bucket, characterised order-preservingly. -/
def humanTexts (msgs : List RawMessage) : List Str :=
  msgs.filterMap fun m =>
    match m with
    | .dict t s => if s = humanRole then some t else none
    | .other => none

/-- The `claude_responses` bucket, characterised order-preservingly. -/
def assistantTexts (msgs : List RawMessage) : List Str :=
  msgs.filterMap fun m =>
    match m with
    | .dict t s => if s = assistantRole then some t else none
    | .other => none

/-- The composite conversation text before length capping: user-section
header, first 3 human messages joined, assistant-section header, first 3
assistant messages joined. -/
def compositeText (c : RawConversation) : Str :=
  userHeader ++ List.intercalate msgSep ((humanTexts c.chat_messages).take 3)
    ++ claudeHeader ++ List.intercalate msgSep ((assistantTexts c.chat_messages).take 3)

/-- The 10,000-character cap with marker from `process_single_conversation`. -/
def truncateFull (t : Str) : Str :=
  if 10000 < t.length then t.take 10000 ++ truncMarker else t

/-- Modelled from the spec: the composite-text shape the spec describes
("the first 3 bucket-A messages joined with a separator, followed by a
section header, followed by the first 3 bucket-B messages joined with the
same separator"), instantiated with the code's separator and section
header.  Used only for comparison against the code's composite. -/
def claimedComposite (userTexts asstTexts : List Str) : Str :=
  List.intercalate msgSep (userTexts.take 3) ++ claudeHeader
    ++ List.intercalate msgSep (asstTexts.take 3)

/-- One iteration of the loop of `parse_conversations_file`: the records
this conversation contributes to `filtered_conversations`.  Skips on a
missing or falsy (`''`) `created_at`, on parse failure, and on a
timestamp before the cutoff; otherwise appends the extraction result if
it is not `None`. -/
def convStep (parseTs : Str → Option Nat) (cutoff : Nat) (conversation : RawConversation) :
    List SummaryRecord :=
  match conversation.created_at with
  | none => []
  | some created_at =>
    if created_at.isEmpty then []
    else
      match parseTs created_at with
      | none => []
      | some conv_date =>
        if cutoff ≤ conv_date then
          match process_single_conversation conversation with
          | some processed => [processed]
          | none => []
        else []

/-- The filtering loop of `parse_conversations_file` over the streamed
conversations (the progress log every 100 records has no effect on the
result and is not modelled). -/
def parse_conversations_file (parseTs : Str → Option Nat) (cutoff : Nat)
    (conversations : List RawConversation) : List SummaryRecord :=
  conversations.foldl (fun acc c => acc ++ convStep parseTs cutoff c) []

/-- Stable insertion by `date`: a record is placed before the first
element whose date is not strictly smaller, hence after every earlier
record with an equal date. -/
def insertByDate (a : SummaryRecord) : List SummaryRecord → List SummaryRecord
  | [] => [a]
  | b :: bs => if strLt b.date a.date then b :: insertByDate a bs else a :: b :: bs

/-- Model of `conversations.sort(key=lambda x: x['date'])`: Python's
sort is stable, and every stable sort under the same key agrees with
this insertion sort. -/
def sortByDate : List SummaryRecord → List SummaryRecord
  | [] => []
  | a :: as => insertByDate a (sortByDate as)

/-- One chunk as assembled by `create_csv_chunks`: its records and the
date-range metadata recorded when the chunk is closed. -/
structure Chunk where
  data : List SummaryRecord
  start_date : Option Str
  end_date : Option Str
  deriving DecidableEq

/-- The loop state of `create_csv_chunks`: closed chunks, the running
chunk, its accumulated estimated size, and the pending `start_date`
(`none` models Python's `None`). -/
structure PackState where
  chunks : List Chunk
  current_chunk : List SummaryRecord
  current_size : Nat
  start_date : Option Str
  deriving DecidableEq

/-- Python truthiness of the `start_date` variable (`None` and `''` are
falsy, so `if not start_date:` refreshes it in both cases). -/
def startFalsy : Option Str → Bool
  | none => true
  | some s => s.isEmpty

/-- One iteration of the packing loop of `create_csv_chunks`.  If adding
the record would exceed the budget and the running chunk is non-empty,
the running chunk is closed (recording its start and end dates) and a
new chunk is started with this record; otherwise the record is appended
to the running chunk. -/
def chunkStep (sz : SummaryRecord → Nat) (maxBytes : Nat) (st : PackState)
    (conv : SummaryRecord) : PackState :=
  let sd := if startFalsy st.start_date then some conv.date else st.start_date
  let conv_size := sz conv
  if maxBytes < st.current_size + conv_size ∧ st.current_chunk ≠ [] then
    { chunks := st.chunks ++
        [{ data := st.current_chunk
           start_date := sd
           end_date := st.current_chunk.getLast?.map SummaryRecord.date }]
      current_chunk := [conv]
      current_size := conv_size
      start_date := some conv.date }
  else
    { chunks := st.chunks
      current_chunk := st.current_chunk ++ [conv]
      current_size := st.current_size + conv_size
      start_date := sd }

/-- `create_csv_chunks`: early return on an empty input, stable sort by
date, greedy single-pass packing, and closing of the trailing chunk. -/
def create_csv_chunks (sz : SummaryRecord → Nat) (maxBytes : Nat)
    (conversations : List SummaryRecord) : List Chunk :=
  if conversations.isEmpty then []
  else
    let sorted := sortByDate conversations
    let st := sorted.foldl (chunkStep sz maxBytes) ⟨[], [], 0, none⟩
    if st.current_chunk.isEmpty then st.chunks
    else
      st.chunks ++
        [{ data := st.current_chunk
           start_date := st.start_date
           end_date := st.current_chunk.getLast?.map SummaryRecord.date }]

/-- Sum of estimated sizes over a list of records. -/
def sumSz (sz : SummaryRecord → Nat) (l : List SummaryRecord) : Nat :=
  (l.map sz).sum

/-- Concatenation of all chunks' records, in chunk order then
intra-chunk order. -/
def chunkData (chunks : List Chunk) : List SummaryRecord :=
  (chunks.map Chunk.data).flatten

/-- The literal `"conversations_"` of the output filename. -/
def csvStem : Str := "conversations_".toList

/-- The literal `"_to_"` of the output filename. -/
def csvTo : Str := "_to_".toList

/-- The literal `".csv"` of the output filename. -/
def csvExt : Str := ".csv".toList

/-- Python's rendering of `None` inside an f-string. -/
def noneStr : Str := "None".toList

/-- Formatting of an optional date inside the filename f-string. -/
def optDate : Option Str → Str
  | none => noneStr
  | some s => s

/-- One written CSV file: its name and its rows. -/
structure CsvFile where
  filename : Str
  rows : List SummaryRecord
  deriving DecidableEq

/-- The writing loop at the end of `create_csv_chunks`: one file per
chunk, named by the chunk's date range, containing the chunk's rows. -/
def write_chunks (chunks : List Chunk) : List CsvFile :=
  chunks.map fun ch =>
    { filename := csvStem ++ optDate ch.start_date ++ csvTo ++ optDate ch.end_date ++ csvExt
      rows := ch.data }

/-- The `run` orchestrator, restricted to its primary output: parse and
filter, stop with no conversation CSV files if nothing survived
(`if not conversations: return`), otherwise chunk and write. -/
def run (parseTs : Str → Option Nat) (cutoff : Nat) (sz : SummaryRecord → Nat)
    (maxBytes : Nat) (conversations_input : List RawConversation) : List CsvFile :=
  let conversations := parse_conversations_file parseTs cutoff conversations_input
  if conversations.isEmpty then []
  else write_chunks (create_csv_chunks sz maxBytes conversations)

/-- A chunk is well-packed: an oversized record sits alone, and a chunk
with at least two records respects the budget. -/
def okChunk (sz : SummaryRecord → Nat) (maxBytes : Nat) (ch : Chunk) : Prop :=
  (∀ r ∈ ch.data, maxBytes < sz r → ch.data = [r]) ∧
  (2 ≤ ch.data.length → sumSz sz ch.data ≤ maxBytes)

/-- Loop invariant of `create_csv_chunks`: the size accumulator tracks
the running chunk, every closed chunk is well-packed, and the running
chunk is well-packed as well. -/
def okState (sz : SummaryRecord → Nat) (maxBytes : Nat) (st : PackState) : Prop :=
  st.current_size = sumSz sz st.current_chunk ∧
  (∀ ch ∈ st.chunks, okChunk sz maxBytes ch) ∧
  (∀ r ∈ st.current_chunk, maxBytes < sz r → st.current_chunk = [r]) ∧
  (2 ≤ st.current_chunk.length → st.current_size ≤ maxBytes)

/-! Concrete inputs used by the witnesses. -/

/-- A constant size estimator returning 5 bytes. -/
def szConst5 : SummaryRecord → Nat := fun _ => 5

/-- A constant size estimator returning 1 byte. -/
def szConst1 : SummaryRecord → Nat := fun _ => 1

/-- A concrete record dated `"a"`. -/
def recW : SummaryRecord := ⟨[], ['a'], [], 1, 0, 0, 0, [], []⟩

/-- A concrete record dated `"b"`. -/
def recB : SummaryRecord := ⟨[], ['b'], [], 1, 0, 0, 0, [], []⟩

/-- The single chunk produced from `[recW, recB]` under budget 10. -/
def chW : Chunk := ⟨[recW, recB], some ['a'], some ['b']⟩

/-- A concrete conversation with one human and one assistant message. -/
def cEx5 : RawConversation :=
  ⟨none, none, none, [.dict "hi".toList humanRole, .dict "yo".toList assistantRole]⟩

/-- The summary record extracted from `cEx5`. -/
def srEx5 : SummaryRecord :=
  { conversation_id := unknownId
    date := []
    title := untitled
    message_count := 2
    user_message_count := 1
    claude_response_count := 1
    total_characters := 4
    conversation_preview := "USER MESSAGES: hi  CLAUDE RESPONSES: yo...".toList
    conversation_text := "USER MESSAGES:\nhi\n\nCLAUDE RESPONSES:\nyo".toList }

/-- A concrete conversation whose message list holds a non-object
element, so extraction raises and is caught. -/
def cEx7 : RawConversation := ⟨none, some ['a'], none, [.other]⟩

/-- A concrete conversation whose single message has sender `"sys"`,
neither human nor assistant. -/
def cEx9 : RawConversation := ⟨none, none, none, [.dict "ab".toList "sys".toList]⟩

/-- A concrete empty-messages conversation dated `"a"`, used to exercise
the date filter. -/
def cW4 : RawConversation := ⟨none, some ['a'], none, []⟩

/-- A concrete timestamp parser: `"a"` parses to time 7, all else fails. -/
def parseW : Str → Option Nat := fun s => if s = ['a'] then some 7 else none

/-- A timestamp parser that always fails. -/
def parseNone : Str → Option Nat := fun _ => none

/-! Facts about the lexicographic string comparison. -/

theorem strLt_nil_right (s : Str) : strLt s [] = false := by
  cases s <;> rfl

theorem strLt_irrefl (s : Str) : strLt s s = false := by
  induction s with
  | nil => rfl
  | cons a as ih => simp [strLt, ih]

theorem strLt_ne {a b : Str} (h : strLt a b = true) : a ≠ b := by
  intro heq
  subst heq
  rw [strLt_irrefl] at h
  exact Bool.false_ne_true h

theorem strLt_asymm {a b : Str} (h : strLt a b = true) : strLt b a = false := by
  induction a generalizing b with
  | nil =>
    cases b with
    | nil => exact absurd h (by simp [strLt])
    | cons y ys => exact strLt_nil_right _
  | cons x xs ih =>
    cases b with
    | nil => rw [strLt_nil_right] at h; exact absurd h Bool.false_ne_true
    | cons y ys =>
      simp only [strLt, Bool.or_eq_true, Bool.and_eq_true, decide_eq_true_eq] at h
      simp only [strLt, Bool.or_eq_false_iff, Bool.and_eq_false_iff,
        decide_eq_false_iff_not]
      rcases h with hlt | ⟨heq, hrec⟩
      · exact ⟨fun hyx => absurd hlt (lt_asymm hyx), Or.inl fun hyx => absurd hlt (hyx ▸ lt_irrefl y)⟩
      · subst heq
        exact ⟨fun hyx => absurd hyx (lt_irrefl x), Or.inr (ih hrec)⟩

theorem strLt_false_trans : ∀ {a b c : Str},
    strLt b a = false → strLt c b = false → strLt c a = false := by
  intro a
  induction a with
  | nil => intro b c h1 h2; exact strLt_nil_right c
  | cons x xs ih =>
    intro b c h1 h2
    cases b with
    | nil => exact absurd h1 (by simp [strLt])
    | cons y ys =>
      cases c with
      | nil => exact absurd h2 (by simp [strLt])
      | cons z zs =>
        simp only [strLt, Bool.or_eq_false_iff, Bool.and_eq_false_iff,
          decide_eq_false_iff_not] at h1 h2 ⊢
        have hxy : x ≤ y := not_lt.mp h1.1
        have hyz : y ≤ z := not_lt.mp h2.1
        refine ⟨not_lt.mpr (le_trans hxy hyz), ?_⟩
        by_cases hzx : z = x
        · subst hzx
          have hyx : y = z := le_antisymm hyz hxy
          subst hyx
          rcases h1.2 with hne | hrec1
          · exact absurd rfl hne
          · rcases h2.2 with hne | hrec2
            · exact absurd rfl hne
            · exact Or.inr (ih hrec1 hrec2)
        · exact Or.inl hzx

/-! The stable sort by date: permutation, sortedness, stability. -/

theorem insertByDate_perm (a : SummaryRecord) (l : List SummaryRecord) :
    (insertByDate a l).Perm (a :: l) := by
  induction l with
  | nil => exact List.Perm.refl _
  | cons b bs ih =>
    by_cases hb : strLt b.date a.date = true
    · simp only [insertByDate, hb, if_true]
      exact (ih.cons b).trans (List.Perm.swap a b bs)
    · simp only [insertByDate]
      rw [if_neg hb]

theorem sortByDate_perm (l : List SummaryRecord) : (sortByDate l).Perm l := by
  induction l with
  | nil => exact List.Perm.refl _
  | cons a as ih => exact (insertByDate_perm a (sortByDate as)).trans (ih.cons a)

theorem insertByDate_pairwise {a : SummaryRecord} {l : List SummaryRecord}
    (h : l.Pairwise fun x y => strLt y.date x.date = false) :
    (insertByDate a l).Pairwise fun x y => strLt y.date x.date = false := by
  induction l with
  | nil => simp [insertByDate]
  | cons b bs ih =>
    rw [List.pairwise_cons] at h
    by_cases hb : strLt b.date a.date = true
    · simp only [insertByDate, hb, if_true]
      rw [List.pairwise_cons]
      refine ⟨?_, ih h.2⟩
      intro y hy
      rcases List.mem_cons.mp ((insertByDate_perm a bs).mem_iff.mp hy) with rfl | hyb
      · exact strLt_asymm hb
      · exact h.1 y hyb
    · have hb' : strLt b.date a.date = false := by simpa using hb
      simp only [insertByDate]
      rw [if_neg hb, List.pairwise_cons]
      refine ⟨?_, List.pairwise_cons.mpr h⟩
      intro y hy
      rcases List.mem_cons.mp hy with rfl | hyb
      · exact hb'
      · exact strLt_false_trans hb' (h.1 y hyb)

theorem sortByDate_pairwise (l : List SummaryRecord) :
    (sortByDate l).Pairwise fun x y => strLt y.date x.date = false := by
  induction l with
  | nil => simp [sortByDate]
  | cons a as ih => exact insertByDate_pairwise ih

theorem filter_insertByDate_pos {a : SummaryRecord} {d : Str} (ha : a.date = d)
    (l : List SummaryRecord) :
    (insertByDate a l).filter (fun x => decide (x.date = d)) =
      a :: l.filter (fun x => decide (x.date = d)) := by
  induction l with
  | nil => simp [insertByDate, ha]
  | cons b bs ih =>
    by_cases hb : strLt b.date a.date = true
    · have hbd : ¬ b.date = d := by
        intro hcontra
        exact strLt_ne hb (hcontra.trans ha.symm)
      simp only [insertByDate, hb, if_true]
      simp [List.filter_cons, hbd, ih]
    · simp only [insertByDate]
      rw [if_neg hb]
      simp [List.filter_cons, ha]

theorem filter_insertByDate_neg {a : SummaryRecord} {d : Str} (ha : ¬ a.date = d)
    (l : List SummaryRecord) :
    (insertByDate a l).filter (fun x => decide (x.date = d)) =
      l.filter (fun x => decide (x.date = d)) := by
  induction l with
  | nil => simp [insertByDate, ha]
  | cons b bs ih =>
    by_cases hb : strLt b.date a.date = true
    · simp only [insertByDate, hb, if_true]
      by_cases hbd : b.date = d <;> simp [List.filter_cons, hbd, ih]
    · simp only [insertByDate]
      rw [if_neg hb]
      simp [List.filter_cons, ha]

theorem sortByDate_filter (l : List SummaryRecord) (d : Str) :
    (sortByDate l).filter (fun x => decide (x.date = d)) =
      l.filter (fun x => decide (x.date = d)) := by
  induction l with
  | nil => rfl
  | cons a as ih =>
    by_cases ha : a.date = d
    · rw [sortByDate, filter_insertByDate_pos ha, ih]
      simp [List.filter_cons, ha]
    · rw [sortByDate, filter_insertByDate_neg ha, ih]
      simp [List.filter_cons, ha]

/-! The greedy packing loop: concatenating its chunks reproduces its input. -/

theorem chunkStep_data (sz : SummaryRecord → Nat) (maxBytes : Nat) (st : PackState)
    (conv : SummaryRecord) :
    chunkData (chunkStep sz maxBytes st conv).chunks ++
        (chunkStep sz maxBytes st conv).current_chunk =
      chunkData st.chunks ++ st.current_chunk ++ [conv] := by
  by_cases hg : maxBytes < st.current_size + sz conv ∧ st.current_chunk ≠ []
  · simp only [chunkStep]
    rw [if_pos hg]
    simp [chunkData, List.map_append, List.flatten_append, List.append_assoc]
  · simp only [chunkStep]
    rw [if_neg hg]
    simp [chunkData, List.append_assoc]

theorem foldl_chunkStep_data (sz : SummaryRecord → Nat) (maxBytes : Nat)
    (l : List SummaryRecord) (st : PackState) :
    chunkData (l.foldl (chunkStep sz maxBytes) st).chunks ++
        (l.foldl (chunkStep sz maxBytes) st).current_chunk =
      chunkData st.chunks ++ st.current_chunk ++ l := by
  induction l generalizing st with
  | nil => simp
  | cons c cs ih =>
    rw [List.foldl_cons, ih, chunkStep_data]
    simp [List.append_assoc]

theorem create_csv_chunks_data (sz : SummaryRecord → Nat) (maxBytes : Nat)
    (conversations : List SummaryRecord) :
    chunkData (create_csv_chunks sz maxBytes conversations) = sortByDate conversations := by
  unfold create_csv_chunks
  by_cases hl : conversations.isEmpty
  · rw [if_pos hl]
    rw [List.isEmpty_iff.mp hl]
    rfl
  · rw [if_neg hl]
    set st := (sortByDate conversations).foldl (chunkStep sz maxBytes) ⟨[], [], 0, none⟩ with hst
    have key := foldl_chunkStep_data sz maxBytes (sortByDate conversations) ⟨[], [], 0, none⟩
    rw [← hst] at key
    simp only [chunkData, List.map_nil, List.flatten_nil, List.nil_append] at key
    by_cases hc : st.current_chunk.isEmpty
    · rw [if_pos hc]
      rw [List.isEmpty_iff.mp hc, List.append_nil] at key
      exact key
    · rw [if_neg hc]
      simpa [chunkData, List.map_append, List.flatten_append] using key

/-! The budget invariant of the packing loop. -/

theorem sumSz_mem_le (sz : SummaryRecord → Nat) {l : List SummaryRecord}
    {r : SummaryRecord} (hr : r ∈ l) : sz r ≤ sumSz sz l := by
  have := List.single_le_sum (l := l.map sz) (fun x _ => Nat.zero_le x) (sz r)
    (List.mem_map.mpr ⟨r, hr, rfl⟩)
  simpa [sumSz] using this

theorem chunkStep_ok {sz : SummaryRecord → Nat} {maxBytes : Nat} {st : PackState}
    (conv : SummaryRecord) (h : okState sz maxBytes st) :
    okState sz maxBytes (chunkStep sz maxBytes st conv) := by
  obtain ⟨hsz, hchunks, hcur, hlen⟩ := h
  by_cases hg : maxBytes < st.current_size + sz conv ∧ st.current_chunk ≠ []
  · simp only [chunkStep]
    rw [if_pos hg]
    refine ⟨by simp [sumSz], ?_, ?_, ?_⟩
    · intro ch hch
      rcases List.mem_append.mp hch with hold | hnew
      · exact hchunks ch hold
      · rw [List.mem_singleton.mp hnew]
        exact ⟨hcur, fun h2 => hsz ▸ hlen h2⟩
    · intro r hr _
      rw [List.mem_singleton.mp hr]
    · intro h2
      simp at h2
  · simp only [chunkStep]
    rw [if_neg hg]
    rw [not_and_or, not_not, not_lt] at hg
    refine ⟨by simp [sumSz, hsz], hchunks, ?_, ?_⟩
    · intro r hr hbig
      rcases List.mem_append.mp hr with hrc | hrl
      · rcases hg with hle | hemp
        · exfalso
          have : sz r ≤ st.current_size := hsz ▸ sumSz_mem_le sz hrc
          omega
        · rw [hemp] at hrc
          simp at hrc
      · rw [List.mem_singleton.mp hrl] at hbig ⊢
        rcases hg with hle | hemp
        · exfalso
          omega
        · simp [hemp]
    · intro h2
      rcases hg with hle | hemp
      · exact hle
      · rw [hemp] at h2
        simp at h2

theorem foldl_chunkStep_ok {sz : SummaryRecord → Nat} {maxBytes : Nat}
    (l : List SummaryRecord) {st : PackState} (h : okState sz maxBytes st) :
    okState sz maxBytes (l.foldl (chunkStep sz maxBytes) st) := by
  induction l generalizing st with
  | nil => exact h
  | cons c cs ih => exact ih (chunkStep_ok c h)

theorem create_csv_chunks_ok (sz : SummaryRecord → Nat) (maxBytes : Nat)
    (conversations : List SummaryRecord) :
    ∀ ch ∈ create_csv_chunks sz maxBytes conversations, okChunk sz maxBytes ch := by
  unfold create_csv_chunks
  by_cases hl : conversations.isEmpty
  · rw [if_pos hl]
    simp
  · rw [if_neg hl]
    have hinit : okState sz maxBytes (⟨[], [], 0, none⟩ : PackState) :=
      ⟨by simp [sumSz], by simp, by simp, by simp⟩
    have hok := foldl_chunkStep_ok (sortByDate conversations) hinit
    set st := (sortByDate conversations).foldl (chunkStep sz maxBytes) ⟨[], [], 0, none⟩ with hst
    obtain ⟨hsz, hchunks, hcur, hlen⟩ := hok
    by_cases hc : st.current_chunk.isEmpty
    · rw [if_pos hc]
      exact hchunks
    · rw [if_neg hc]
      intro ch hch
      rcases List.mem_append.mp hch with hold | hnew
      · exact hchunks ch hold
      · rw [List.mem_singleton.mp hnew]
        exact ⟨hcur, fun h2 => hsz ▸ hlen h2⟩

/-! Claims about the chunk partitioner. -/

/-- C1: for every list of summary records and every size budget, the
chunks produced by `create_csv_chunks`, concatenated in chunk order with
intra-chunk order preserved, equal exactly the input list stably sorted
by date ascending: a permutation of the input (each record exactly once,
no duplication, no loss), pairwise non-decreasing in date, and with the
relative order of equal-date records preserved (the filter at each date
is unchanged), which characterises the stable sort. -/
theorem chunks_roundtrip_sorted (sz : SummaryRecord → Nat) (maxBytes : Nat)
    (conversations : List SummaryRecord) :
    chunkData (create_csv_chunks sz maxBytes conversations) = sortByDate conversations ∧
    (chunkData (create_csv_chunks sz maxBytes conversations)).Perm conversations ∧
    (chunkData (create_csv_chunks sz maxBytes conversations)).Pairwise
      (fun x y => strLt y.date x.date = false) ∧
    ∀ d : Str,
      (chunkData (create_csv_chunks sz maxBytes conversations)).filter
          (fun x => decide (x.date = d)) =
        conversations.filter (fun x => decide (x.date = d)) := by
  rw [create_csv_chunks_data]
  exact ⟨rfl, sortByDate_perm conversations, sortByDate_pairwise conversations,
    fun d => sortByDate_filter conversations d⟩

/-- C2: a record whose own estimated size exceeds the budget ends up in
a chunk containing only that record: it appears in some chunk (never
dropped), and every chunk containing it is the singleton of it (never
grouped with another record). -/
theorem oversized_record_isolated (sz : SummaryRecord → Nat) (maxBytes : Nat)
    (conversations : List SummaryRecord) (r : SummaryRecord)
    (hr : r ∈ conversations) (hbig : maxBytes < sz r) :
    (∃ ch ∈ create_csv_chunks sz maxBytes conversations, r ∈ ch.data) ∧
    ∀ ch ∈ create_csv_chunks sz maxBytes conversations, r ∈ ch.data → ch.data = [r] := by
  constructor
  · have hmem : r ∈ chunkData (create_csv_chunks sz maxBytes conversations) := by
      rw [create_csv_chunks_data]
      exact (sortByDate_perm conversations).mem_iff.mpr hr
    rw [chunkData] at hmem
    rcases List.mem_flatten.mp hmem with ⟨d, hd, hrd⟩
    rcases List.mem_map.mp hd with ⟨ch, hch, rfl⟩
    exact ⟨ch, hch, hrd⟩
  · intro ch hch hrch
    exact (create_csv_chunks_ok sz maxBytes conversations ch hch).1 r hrch hbig

/-- Witness for C2: a single record of estimated size 5 against budget 3. -/
theorem oversized_record_isolated_witness :
    (∃ ch ∈ create_csv_chunks szConst5 3 [recW], recW ∈ ch.data) ∧
    ∀ ch ∈ create_csv_chunks szConst5 3 [recW], recW ∈ ch.data → ch.data = [recW] :=
  oversized_record_isolated szConst5 3 [recW] recW (by decide) (by decide)

/-- C3: every chunk with two or more records keeps the sum of estimated
sizes within the budget; a chunk that exceeds the budget is a singleton
holding one oversized record. -/
theorem chunk_budget_bound (sz : SummaryRecord → Nat) (maxBytes : Nat)
    (conversations : List SummaryRecord) :
    ∀ ch ∈ create_csv_chunks sz maxBytes conversations,
      (2 ≤ ch.data.length → sumSz sz ch.data ≤ maxBytes) ∧
      (maxBytes < sumSz sz ch.data → ∃ r, ch.data = [r] ∧ maxBytes < sz r) := by
  intro ch hch
  obtain ⟨hiso, hbound⟩ := create_csv_chunks_ok sz maxBytes conversations ch hch
  refine ⟨hbound, ?_⟩
  intro hover
  match hd : ch.data with
  | [] =>
    rw [hd] at hover
    simp [sumSz] at hover
  | [r] =>
    refine ⟨r, rfl, ?_⟩
    rw [hd] at hover
    simpa [sumSz] using hover
  | a :: b :: rest =>
    exfalso
    rw [hd] at hover
    have := hbound (by rw [hd]; simp)
    rw [hd] at this
    omega

/-- Witness for C3 at a concrete two-record chunk within budget. -/
theorem chunk_budget_bound_witness :
    (2 ≤ chW.data.length → sumSz szConst1 chW.data ≤ 10) ∧
    (10 < sumSz szConst1 chW.data → ∃ r, chW.data = [r] ∧ 10 < szConst1 r) :=
  chunk_budget_bound szConst1 10 [recW, recB] chW (by decide)

/-! Characterisation of the extraction path. -/

theorem humanRole_ne_assistantRole : humanRole ≠ assistantRole := by decide

theorem humanTexts_cons_dict (t s : Str) (rest : List RawMessage) :
    humanTexts (.dict t s :: rest) =
      if s = humanRole then t :: humanTexts rest else humanTexts rest := by
  by_cases hs : s = humanRole <;> simp [humanTexts, hs]

theorem assistantTexts_cons_dict (t s : Str) (rest : List RawMessage) :
    assistantTexts (.dict t s :: rest) =
      if s = assistantRole then t :: assistantTexts rest else assistantTexts rest := by
  by_cases hs : s = assistantRole <;> simp [assistantTexts, hs]

theorem processMessages_ok {msgs : List RawMessage} {us cs : List Str} {tc : Nat}
    (h : processMessages msgs = .ok (us, cs, tc)) :
    us = humanTexts msgs ∧ cs = assistantTexts msgs ∧
    tc = (msgs.map fun m => m.textOf.length).sum ∧
    ∀ m ∈ msgs, m.senderOf.isSome := by
  induction msgs generalizing us cs tc with
  | nil =>
    simp only [processMessages, Except.ok.injEq, Prod.mk.injEq] at h
    obtain ⟨rfl, rfl, rfl⟩ := h
    simp [humanTexts, assistantTexts]
  | cons m rest ih =>
    cases m with
    | other => simp [processMessages] at h
    | dict t s =>
      cases hrec : processMessages rest with
      | error e => simp [processMessages, hrec] at h
      | ok trip =>
        obtain ⟨us', cs', tc'⟩ := trip
        obtain ⟨h1, h2, h3, h4⟩ := ih hrec
        simp only [processMessages, hrec] at h
        by_cases hs : s = humanRole
        · rw [if_pos hs] at h
          simp only [Except.ok.injEq, Prod.mk.injEq] at h
          obtain ⟨h5, h6, h7⟩ := h
          subst h5
          subst h6
          subst h7
          refine ⟨?_, ?_, ?_, ?_⟩
          · rw [humanTexts_cons_dict, if_pos hs, h1]
          · rw [assistantTexts_cons_dict,
              if_neg (fun hsa => humanRole_ne_assistantRole (hs.symm.trans hsa)), h2]
          · simp [RawMessage.textOf, h3]
          · intro m hm
            rcases List.mem_cons.mp hm with rfl | hm'
            · simp [RawMessage.senderOf]
            · exact h4 m hm'
        · rw [if_neg hs] at h
          by_cases hsa : s = assistantRole
          · rw [if_pos hsa] at h
            simp only [Except.ok.injEq, Prod.mk.injEq] at h
            obtain ⟨h5, h6, h7⟩ := h
            subst h5
            subst h6
            subst h7
            refine ⟨?_, ?_, ?_, ?_⟩
            · rw [humanTexts_cons_dict, if_neg hs, h1]
            · rw [assistantTexts_cons_dict, if_pos hsa, h2]
            · simp [RawMessage.textOf, h3]
            · intro m hm
              rcases List.mem_cons.mp hm with rfl | hm'
              · simp [RawMessage.senderOf]
              · exact h4 m hm'
          · rw [if_neg hsa] at h
            simp only [Except.ok.injEq, Prod.mk.injEq] at h
            obtain ⟨h5, h6, h7⟩ := h
            subst h5
            subst h6
            subst h7
            refine ⟨?_, ?_, ?_, ?_⟩
            · rw [humanTexts_cons_dict, if_neg hs, h1]
            · rw [assistantTexts_cons_dict, if_neg hsa, h2]
            · simp [RawMessage.textOf, h3]
            · intro m hm
              rcases List.mem_cons.mp hm with rfl | hm'
              · simp [RawMessage.senderOf]
              · exact h4 m hm'

theorem processMessages_eq_ok (msgs : List RawMessage)
    (hall : ∀ m ∈ msgs, m.senderOf.isSome) :
    processMessages msgs =
      .ok (humanTexts msgs, assistantTexts msgs, (msgs.map fun m => m.textOf.length).sum) := by
  induction msgs with
  | nil => simp [processMessages, humanTexts, assistantTexts]
  | cons m rest ih =>
    cases m with
    | other =>
      exact absurd (hall _ (List.mem_cons_self _ _)) (by simp [RawMessage.senderOf])
    | dict t s =>
      have ihh := ih (fun m hm => hall m (List.mem_cons_of_mem _ hm))
      simp only [processMessages, ihh]
      by_cases hs : s = humanRole
      · rw [if_pos hs, humanTexts_cons_dict, assistantTexts_cons_dict, if_pos hs,
          if_neg (fun hsa => humanRole_ne_assistantRole (hs.symm.trans hsa))]
        simp [RawMessage.textOf]
      · by_cases hsa : s = assistantRole
        · rw [if_neg hs, if_pos hsa, humanTexts_cons_dict, assistantTexts_cons_dict,
            if_neg hs, if_pos hsa]
          simp [RawMessage.textOf]
        · rw [if_neg hs, if_neg hsa, humanTexts_cons_dict, assistantTexts_cons_dict,
            if_neg hs, if_neg hsa]
          simp [RawMessage.textOf]

theorem process_some {c : RawConversation} {sr : SummaryRecord}
    (h : process_single_conversation c = some sr) :
    c.chat_messages ≠ [] ∧
    (∀ m ∈ c.chat_messages, m.senderOf.isSome) ∧
    sr.conversation_text = truncateFull (compositeText c) ∧
    sr.conversation_preview =
      (((truncateFull (compositeText c)).map (fun ch => if ch = '\n' then ' ' else ch)).map
        (fun ch => if ch = '\r' then ' ' else ch)).take 500 ++ ellipsis ∧
    sr.user_message_count = (humanTexts c.chat_messages).length ∧
    sr.claude_response_count = (assistantTexts c.chat_messages).length ∧
    sr.message_count = c.chat_messages.length ∧
    sr.total_characters = (c.chat_messages.map fun m => m.textOf.length).sum := by
  unfold process_single_conversation at h
  cases hb : extractBody c with
  | error e => rw [hb] at h; exact absurd h (by simp)
  | ok r =>
    rw [hb] at h
    simp only [] at h
    subst h
    unfold extractBody at hb
    by_cases hemp : c.chat_messages.isEmpty
    · rw [if_pos hemp] at hb
      simp at hb
    · rw [if_neg hemp] at hb
      cases hpm : processMessages c.chat_messages with
      | error e => rw [hpm] at hb; simp at hb
      | ok trip =>
        obtain ⟨us, cs, tc⟩ := trip
        obtain ⟨h1, h2, h3, h4⟩ := processMessages_ok hpm
        rw [hpm] at hb
        simp only [Except.ok.injEq, Option.some.injEq] at hb
        subst hb
        refine ⟨fun hnil => hemp (by simp [hnil]), h4, ?_, ?_, ?_, ?_, rfl, ?_⟩
        · simp [truncateFull, compositeText, h1, h2, List.append_assoc]
        · simp [truncateFull, compositeText, h1, h2, List.append_assoc]
        · simp [h1]
        · simp [h2]
        · exact h3

theorem bucket_counts (msgs : List RawMessage)
    (hall : ∀ m ∈ msgs, m.senderOf.isSome) :
    (humanTexts msgs).length + (assistantTexts msgs).length ≤ msgs.length ∧
    ((humanTexts msgs).length + (assistantTexts msgs).length = msgs.length ↔
      ∀ m ∈ msgs, m.senderOf = some humanRole ∨ m.senderOf = some assistantRole) := by
  induction msgs with
  | nil => simp [humanTexts, assistantTexts]
  | cons m rest ih =>
    obtain ⟨ihle, ihiff⟩ := ih (fun x hx => hall x (List.mem_cons_of_mem _ hx))
    cases m with
    | other =>
      exact absurd (hall _ (List.mem_cons_self _ _)) (by simp [RawMessage.senderOf])
    | dict t s =>
      rw [humanTexts_cons_dict, assistantTexts_cons_dict]
      by_cases hs : s = humanRole
      · rw [if_pos hs, if_neg (fun hsa => humanRole_ne_assistantRole (hs.symm.trans hsa))]
        simp only [List.length_cons]
        refine ⟨by omega, ?_⟩
        rw [List.forall_mem_cons]
        constructor
        · intro heq
          exact ⟨Or.inl (by simp [RawMessage.senderOf, hs]), ihiff.mp (by omega)⟩
        · rintro ⟨-, hrest⟩
          have := ihiff.mpr hrest
          omega
      · by_cases hsa : s = assistantRole
        · rw [if_neg hs, if_pos hsa]
          simp only [List.length_cons]
          refine ⟨by omega, ?_⟩
          rw [List.forall_mem_cons]
          constructor
          · intro heq
            exact ⟨Or.inr (by simp [RawMessage.senderOf, hsa]), ihiff.mp (by omega)⟩
          · rintro ⟨-, hrest⟩
            have := ihiff.mpr hrest
            omega
        · rw [if_neg hs, if_neg hsa]
          simp only [List.length_cons]
          refine ⟨by omega, ?_⟩
          rw [List.forall_mem_cons]
          constructor
          · intro heq
            exfalso
            omega
          · rintro ⟨hhead, -⟩
            exfalso
            rcases hhead with hh | hh
            · exact hs (by simpa [RawMessage.senderOf] using hh)
            · exact hsa (by simpa [RawMessage.senderOf] using hh)

theorem humanTexts_eq_nil {msgs : List RawMessage}
    (h : ∀ m ∈ msgs, m.senderOf ≠ some humanRole) : humanTexts msgs = [] := by
  rw [humanTexts, List.filterMap_eq_nil_iff]
  intro m hm
  cases m with
  | other => rfl
  | dict t s =>
    have hns : ¬ s = humanRole := by simpa [RawMessage.senderOf] using h _ hm
    simp [hns]

theorem assistantTexts_eq_nil {msgs : List RawMessage}
    (h : ∀ m ∈ msgs, m.senderOf ≠ some assistantRole) : assistantTexts msgs = [] := by
  rw [assistantTexts, List.filterMap_eq_nil_iff]
  intro m hm
  cases m with
  | other => rfl
  | dict t s =>
    have hns : ¬ s = assistantRole := by simpa [RawMessage.senderOf] using h _ hm
    simp [hns]

/-! Decomposition of the filtering loop. -/

theorem parse_foldl_acc (parseTs : Str → Option Nat) (cutoff : Nat)
    (l : List RawConversation) (acc : List SummaryRecord) :
    l.foldl (fun a c => a ++ convStep parseTs cutoff c) acc =
      acc ++ parse_conversations_file parseTs cutoff l := by
  induction l generalizing acc with
  | nil => simp [parse_conversations_file]
  | cons c cs ih =>
    simp only [parse_conversations_file, List.foldl_cons]
    rw [ih, ih]
    simp [List.append_assoc]

theorem parse_cons (parseTs : Str → Option Nat) (cutoff : Nat)
    (c : RawConversation) (l : List RawConversation) :
    parse_conversations_file parseTs cutoff (c :: l) =
      convStep parseTs cutoff c ++ parse_conversations_file parseTs cutoff l := by
  simp only [parse_conversations_file, List.foldl_cons]
  rw [parse_foldl_acc]
  simp only [List.nil_append]
  rfl

theorem parse_append (parseTs : Str → Option Nat) (cutoff : Nat)
    (l1 l2 : List RawConversation) :
    parse_conversations_file parseTs cutoff (l1 ++ l2) =
      parse_conversations_file parseTs cutoff l1 ++ parse_conversations_file parseTs cutoff l2 := by
  simp only [parse_conversations_file, List.foldl_append]
  rw [parse_foldl_acc]
  rfl

theorem convStep_none {parseTs : Str → Option Nat} {cutoff : Nat}
    {c : RawConversation} (h : process_single_conversation c = none) :
    convStep parseTs cutoff c = [] := by
  rcases hca : c.created_at with - | s
  · simp [convStep, hca]
  · rcases hp : parseTs s with - | t
    · simp [convStep, hca, hp]
    · simp [convStep, hca, hp, h]

/-! Claims about filtering, extraction and orchestration. -/

/-- C4: a record with a parsable creation timestamp is passed to
extraction (contributing its extraction result to the output) if and
only if its timestamp is at or after the cutoff: a timestamp exactly
equal to the cutoff is included, a strictly earlier one contributes
nothing. -/
theorem date_filter_boundary (parseTs : Str → Option Nat) (cutoff : Nat)
    (l1 l2 : List RawConversation) (c : RawConversation) (s : Str) (t : Nat)
    (hempty : parseTs [] = none) (hs : c.created_at = some s) (ht : parseTs s = some t) :
    parse_conversations_file parseTs cutoff (l1 ++ c :: l2) =
      parse_conversations_file parseTs cutoff l1 ++
        (if cutoff ≤ t then (process_single_conversation c).toList else []) ++
        parse_conversations_file parseTs cutoff l2 := by
  rw [parse_append, parse_cons]
  have hne : s.isEmpty = false := by
    rcases s with - | ⟨a, s'⟩
    · rw [hempty] at ht
      exact absurd ht (by simp)
    · rfl
  have hstep : convStep parseTs cutoff c =
      if cutoff ≤ t then (process_single_conversation c).toList else [] := by
    by_cases hc : cutoff ≤ t
    · simp only [convStep, hs, ht, hne, Bool.false_eq_true, if_false, if_pos hc]
      cases hpc : process_single_conversation c <;> simp [Option.toList]
    · simp [convStep, hs, ht, hne, hc]
  rw [hstep]
  simp [List.append_assoc]

/-- Witness for C4: a boundary timestamp exactly equal to the cutoff. -/
theorem date_filter_boundary_witness :
    parse_conversations_file parseW 7 ([] ++ cW4 :: []) =
      parse_conversations_file parseW 7 [] ++
        (if 7 ≤ 7 then (process_single_conversation cW4).toList else []) ++
        parse_conversations_file parseW 7 [] :=
  date_filter_boundary parseW 7 [] [] cW4 ['a'] 7 (by decide) (by decide) (by decide)

/-- C5 counterexample: at the concrete conversation `cEx5` the composite
text the code stores is the claimed concatenation with an extra leading
user-section header in front, so it differs from the claimed
concatenation itself: the claim omits the leading header. -/
theorem composite_missing_user_header :
    (process_single_conversation cEx5).map SummaryRecord.conversation_text =
      some (userHeader ++ claimedComposite ["hi".toList] ["yo".toList]) ∧
    (process_single_conversation cEx5).map SummaryRecord.conversation_text ≠
      some (claimedComposite ["hi".toList] ["yo".toList]) :=
  ⟨by decide, by decide⟩

/-- C5 (amended): the composite full text is a user-section header,
followed by the first 3 human-bucket messages joined with the separator,
followed by an assistant-section header, followed by the first 3
assistant-bucket messages joined with the same separator, in original
message order within each bucket (the buckets are order-preserving
filters); the stored text is this composite after the 10,000-character
cap. -/
theorem composite_text_structure (c : RawConversation) (sr : SummaryRecord)
    (h : process_single_conversation c = some sr) :
    sr.conversation_text = truncateFull (compositeText c) ∧
    compositeText c =
      userHeader ++ List.intercalate msgSep ((humanTexts c.chat_messages).take 3) ++
        claudeHeader ++ List.intercalate msgSep ((assistantTexts c.chat_messages).take 3) :=
  ⟨(process_some h).2.2.1, rfl⟩

/-- Witness for C5 (amended) at the concrete conversation `cEx5`. -/
theorem composite_text_structure_witness :
    srEx5.conversation_text = truncateFull (compositeText cEx5) ∧
    compositeText cEx5 =
      userHeader ++ List.intercalate msgSep ((humanTexts cEx5.chat_messages).take 3) ++
        claudeHeader ++ List.intercalate msgSep ((assistantTexts cEx5.chat_messages).take 3) :=
  composite_text_structure cEx5 srEx5 (by decide)

/-- C6: the stored full text is at most 10000 characters plus the
truncation marker, the marker being appended exactly when the composite
exceeded 10000 characters; the preview is at most 500 characters plus
the ellipsis, and the ellipsis is appended unconditionally (the preview
always ends in it). -/
theorem truncation_invariant (c : RawConversation) (sr : SummaryRecord)
    (h : process_single_conversation c = some sr) :
    sr.conversation_text.length ≤ 10000 + truncMarker.length ∧
    sr.conversation_preview.length ≤ 500 + ellipsis.length ∧
    (∃ p : Str, p.length ≤ 500 ∧ sr.conversation_preview = p ++ ellipsis) ∧
    (10000 < (compositeText c).length →
      sr.conversation_text = (compositeText c).take 10000 ++ truncMarker) ∧
    ((compositeText c).length ≤ 10000 → sr.conversation_text = compositeText c) := by
  obtain ⟨-, -, htext, hprev, -, -, -, -⟩ := process_some h
  refine ⟨?_, ?_, ?_, ?_, ?_⟩
  · rw [htext, truncateFull]
    split
    · rw [List.length_append, List.length_take]
      omega
    · next hle =>
      rw [not_lt] at hle
      omega
  · rw [hprev, List.length_append, List.length_take]
    omega
  · refine ⟨_, ?_, hprev⟩
    rw [List.length_take]
    omega
  · intro hlong
    rw [htext, truncateFull, if_pos hlong]
  · intro hshort
    rw [htext, truncateFull, if_neg (by omega)]

/-- Witness for C6 at the concrete conversation `cEx5`. -/
theorem truncation_invariant_witness :
    srEx5.conversation_text.length ≤ 10000 + truncMarker.length ∧
    srEx5.conversation_preview.length ≤ 500 + ellipsis.length ∧
    (∃ p : Str, p.length ≤ 500 ∧ srEx5.conversation_preview = p ++ ellipsis) ∧
    (10000 < (compositeText cEx5).length →
      srEx5.conversation_text = (compositeText cEx5).take 10000 ++ truncMarker) ∧
    ((compositeText cEx5).length ≤ 10000 → srEx5.conversation_text = compositeText cEx5) :=
  truncation_invariant cEx5 srEx5 (by decide)

/-- C7: an exception inside the extraction body is caught: the extractor
returns `none` for that record, and the batch filter over any list
containing the record equals the batch with the record dropped, so one
failing record never prevents processing of the rest. -/
theorem extraction_failure_isolated (c : RawConversation) (e : String)
    (parseTs : Str → Option Nat) (cutoff : Nat) (l1 l2 : List RawConversation)
    (hb : extractBody c = .error e) :
    process_single_conversation c = none ∧
    parse_conversations_file parseTs cutoff (l1 ++ c :: l2) =
      parse_conversations_file parseTs cutoff l1 ++
        parse_conversations_file parseTs cutoff l2 := by
  have hnone : process_single_conversation c = none := by
    unfold process_single_conversation
    rw [hb]
  refine ⟨hnone, ?_⟩
  rw [parse_append, parse_cons, convStep_none hnone]
  simp

/-- Witness for C7: a conversation with a non-object message element. -/
theorem extraction_failure_isolated_witness :
    process_single_conversation cEx7 = none ∧
    parse_conversations_file parseNone 0 ([] ++ cEx7 :: []) =
      parse_conversations_file parseNone 0 [] ++ parse_conversations_file parseNone 0 [] :=
  extraction_failure_isolated cEx7 ("AttributeError: get") parseNone 0 [] [] rfl

/-- C8: when filtering yields zero summary records the orchestrator
stops before partitioning and writes no conversation CSV files. -/
theorem empty_result_no_files (parseTs : Str → Option Nat) (cutoff : Nat)
    (sz : SummaryRecord → Nat) (maxBytes : Nat) (convs : List RawConversation)
    (h : parse_conversations_file parseTs cutoff convs = []) :
    run parseTs cutoff sz maxBytes convs = [] := by
  simp [run, h]

/-- Witness for C8: one record rejected by the parser yields no files. -/
theorem empty_result_no_files_witness :
    run parseNone 0 szConst1 18 [cEx7] = [] :=
  empty_result_no_files parseNone 0 szConst1 18 [cEx7] (by decide)

/-- C9: a conversation whose non-empty message list has no human-sender
and no assistant-sender message still extracts to a summary record, with
both role counts 0, the message count equal to the full list length, and
the total characters summing every message's content length regardless
of role. -/
theorem no_role_messages_extracted (c : RawConversation)
    (hne : c.chat_messages ≠ [])
    (hall : ∀ m ∈ c.chat_messages, m.senderOf.isSome ∧
      m.senderOf ≠ some humanRole ∧ m.senderOf ≠ some assistantRole) :
    ∃ sr, process_single_conversation c = some sr ∧
      sr.user_message_count = 0 ∧ sr.claude_response_count = 0 ∧
      sr.message_count = c.chat_messages.length ∧
      sr.total_characters = (c.chat_messages.map fun m => m.textOf.length).sum := by
  have hpm := processMessages_eq_ok c.chat_messages (fun m hm => (hall m hm).1)
  have hh := humanTexts_eq_nil (fun m hm => (hall m hm).2.1)
  have ha := assistantTexts_eq_nil (fun m hm => (hall m hm).2.2)
  have hemp : c.chat_messages.isEmpty = false := by simp [List.isEmpty_iff, hne]
  simp only [process_single_conversation, extractBody, hemp, Bool.false_eq_true,
    if_false, hpm]
  exact ⟨_, rfl, by simp [hh], by simp [ha], rfl, rfl⟩

/-- Witness for C9: one message whose sender is `"sys"`. -/
theorem no_role_messages_extracted_witness :
    ∃ sr, process_single_conversation cEx9 = some sr ∧
      sr.user_message_count = 0 ∧ sr.claude_response_count = 0 ∧
      sr.message_count = cEx9.chat_messages.length ∧
      sr.total_characters = (cEx9.chat_messages.map fun m => m.textOf.length).sum :=
  no_role_messages_extracted cEx9 (by decide) (by decide)

/-- C10: role counts never exceed the message count, with equality
exactly when every message's sender is human or assistant. -/
theorem role_counts_bound (c : RawConversation) (sr : SummaryRecord)
    (h : process_single_conversation c = some sr) :
    sr.user_message_count + sr.claude_response_count ≤ sr.message_count ∧
    (sr.user_message_count + sr.claude_response_count = sr.message_count ↔
      ∀ m ∈ c.chat_messages,
        m.senderOf = some humanRole ∨ m.senderOf = some assistantRole) := by
  obtain ⟨-, hall, -, -, hu, ha, hm, -⟩ := process_some h
  obtain ⟨hle, hiff⟩ := bucket_counts c.chat_messages hall
  rw [hu, ha, hm]
  exact ⟨hle, hiff⟩

/-- Witness for C10 at the concrete conversation `cEx5`. -/
theorem role_counts_bound_witness :
    srEx5.user_message_count + srEx5.claude_response_count ≤ srEx5.message_count ∧
    (srEx5.user_message_count + srEx5.claude_response_count = srEx5.message_count ↔
      ∀ m ∈ cEx5.chat_messages,
        m.senderOf = some humanRole ∨ m.senderOf = some assistantRole) :=
  role_counts_bound cEx5 srEx5 (by decide)

end HistoricalParser
